import Mathlib

/-!
# Block / piece geometry of `libtransmission/block-info.h`

A shallow embedding of `struct tr_block_info` and of its inline queries
(`pieceForBlock`, `countBytesInPiece`, `countBytesInBlock`, `totalOffset`,
`blockRangeForPiece`), followed by theorems about them.

Machine integers are natural numbers reduced modulo `2^32` or `2^64` at the
places where the C++ code computes in, or converts to, a type of that width.
The index types `tr_piece_index_t` and `tr_block_index_t` come from
`transmission.h`; they are unsigned 32-bit integers, and `tr_block_range` is
a pair of block indices.  An argument is converted to the width of its
parameter on entry.
A division by zero is undefined behaviour in C++; the queries that divide
return `none` there.
-/

namespace BlockInfo

/-! ## Machine integers -/

/-- Conversion to `uint32_t`: reduction modulo `2^32`. -/
def u32 (x : Nat) : Nat := x % 2 ^ 32

/-- Conversion to `uint64_t`: reduction modulo `2^64`. -/
def u64 (x : Nat) : Nat := x % 2 ^ 64

/-! ## Data model -/

/-- The fields of `struct tr_block_info` (block-info.h lines 21-30), in the
order of the declaration.  `total_size`, `piece_size` and `n_pieces` are
`uint64_t`; the other six are 32 bits wide (`tr_block_index_t` and
`uint32_t`). -/
structure tr_block_info where
  total_size : Nat
  piece_size : Nat
  n_pieces : Nat
  n_blocks : Nat
  n_blocks_in_piece : Nat
  n_blocks_in_final_piece : Nat
  block_size : Nat
  final_block_size : Nat
  final_piece_size : Nat
  deriving DecidableEq, Repr

/-- The pair of block indices `{ first_block, final_block }` that
`blockRangeForPiece` returns; both components are `tr_block_index_t`. -/
structure tr_block_range where
  first : Nat
  last : Nat
  deriving DecidableEq, Repr

/-- Every field holds a value of its declared width. -/
def InWidth (bi : tr_block_info) : Prop :=
  bi.total_size < 2 ^ 64 ∧ bi.piece_size < 2 ^ 64 ∧ bi.n_pieces < 2 ^ 64 ∧
  bi.n_blocks < 2 ^ 32 ∧ bi.n_blocks_in_piece < 2 ^ 32 ∧
  bi.n_blocks_in_final_piece < 2 ^ 32 ∧ bi.block_size < 2 ^ 32 ∧
  bi.final_block_size < 2 ^ 32 ∧ bi.final_piece_size < 2 ^ 32

instance (bi : tr_block_info) : Decidable (InWidth bi) := by
  unfold InWidth; infer_instance

/-! ## The queries -/

/-- `pieceForBlock` (lines 39-42): `block / n_blocks_in_piece` in 32-bit
unsigned arithmetic; undefined when `n_blocks_in_piece` is zero. -/
def pieceForBlock (bi : tr_block_info) (block : Nat) : Option Nat :=
  if bi.n_blocks_in_piece = 0 then none
  else some (u32 block / bi.n_blocks_in_piece)

/-- `countBytesInPiece` (lines 44-48).  `piece + 1` is computed in 32 bits
and compared with the 64-bit `n_pieces`; the selected value (of 64-bit type,
since `piece_size` is 64 bits wide) is converted to the `uint32_t` return
type. -/
def countBytesInPiece (bi : tr_block_info) (piece : Nat) : Nat :=
  u32 (if u32 (u32 piece + 1) = bi.n_pieces then bi.final_piece_size
       else bi.piece_size)

/-- `countBytesInBlock` (lines 50-54): every operand is 32 bits wide. -/
def countBytesInBlock (bi : tr_block_info) (block : Nat) : Nat :=
  u32 (if u32 (u32 block + 1) = bi.n_blocks then bi.final_block_size
       else bi.block_size)

/-- `totalOffset` (lines 56-63): a 64-bit accumulator starting at
`piece_size`, multiplied by `index`, then increased by `offset` and by
`length`. -/
def totalOffset (bi : tr_block_info) (index offset : Nat) (length : Nat := 0) : Nat :=
  let ret := bi.piece_size
  let ret := u64 (ret * u32 index)
  let ret := u64 (ret + u32 offset)
  let ret := u64 (ret + u32 length)
  ret

/-- The 32-bit difference `countBytesInPiece(piece) - 1` that
`blockRangeForPiece` adds to the offset of the piece: the unsigned
subtraction wraps to `2^32 - 1` when the count is 0. -/
def lastByte (bi : tr_block_info) (piece : Nat) : Nat :=
  u32 (countBytesInPiece bi piece + 2 ^ 32 - 1)

/-- `blockRangeForPiece` (lines 65-74).  The accumulator `offset` is 64 bits
wide; `countBytesInPiece(piece) - 1` is a 32-bit unsigned subtraction; both
quotients are narrowed to the 32-bit block index.  Undefined when
`block_size` is zero. -/
def blockRangeForPiece (bi : tr_block_info) (piece : Nat) : Option tr_block_range :=
  if bi.block_size = 0 then none
  else
    let offset := bi.piece_size
    let offset := u64 (offset * u32 piece)
    let first_block := u32 (offset / bi.block_size)
    let offset := u64 (offset + lastByte bi piece)
    let final_block := u32 (offset / bi.block_size)
    some { first := first_block, last := final_block }

/-! ## Geometries -/

/-- Ceiling of `a / b` on natural numbers. -/
def ceilDiv (a b : Nat) : Nat := (a + b - 1) / b

/-- A valid geometry: positive total size and block size, a piece of
`n_blocks_in_piece ≥ 1` whole blocks, the counts being the ceilings of the
quotients, the final sizes being what remains after the non-final pieces and
blocks, and every field within its declared width. -/
def ValidGeometry (bi : tr_block_info) : Prop :=
  0 < bi.total_size ∧ 1 ≤ bi.block_size ∧ 1 ≤ bi.n_blocks_in_piece ∧
  bi.piece_size = bi.n_blocks_in_piece * bi.block_size ∧
  bi.n_pieces = ceilDiv bi.total_size bi.piece_size ∧
  bi.n_blocks = ceilDiv bi.total_size bi.block_size ∧
  bi.final_piece_size = bi.total_size - (bi.n_pieces - 1) * bi.piece_size ∧
  bi.final_block_size = bi.total_size - (bi.n_blocks - 1) * bi.block_size ∧
  bi.n_blocks_in_final_piece = ceilDiv bi.final_piece_size bi.block_size ∧
  InWidth bi

instance (bi : tr_block_info) : Decidable (ValidGeometry bi) := by
  unfold ValidGeometry; infer_instance

/-- The geometry of scenario S1: 1 MiB in pieces of 256 KiB and blocks of
16 KiB. -/
def s1 : tr_block_info :=
  { total_size := 1048576, piece_size := 262144, n_pieces := 4,
    n_blocks := 64, n_blocks_in_piece := 16, n_blocks_in_final_piece := 16,
    block_size := 16384, final_block_size := 16384, final_piece_size := 262144 }

/-- The geometry of scenario S2: 1 000 000 bytes in pieces of 256 KiB and
blocks of 16 KiB. -/
def s2 : tr_block_info :=
  { total_size := 1000000, piece_size := 262144, n_pieces := 4,
    n_blocks := 62, n_blocks_in_piece := 16, n_blocks_in_final_piece := 14,
    block_size := 16384, final_block_size := 576, final_piece_size := 213568 }

/-- A geometry with a piece size of `2^33` bytes, which needs more than 32
bits: two pieces, the second of one byte, in blocks of 16 KiB. -/
def wide : tr_block_info :=
  { total_size := 2 ^ 33 + 1, piece_size := 2 ^ 33, n_pieces := 2,
    n_blocks := 2 ^ 19 + 1, n_blocks_in_piece := 2 ^ 19,
    n_blocks_in_final_piece := 1, block_size := 16384,
    final_block_size := 1, final_piece_size := 1 }

/-- A geometry with a piece size of exactly `2^32` bytes: two pieces, the
second of one byte, in blocks of 16 KiB. -/
def big : tr_block_info :=
  { total_size := 2 ^ 32 + 1, piece_size := 2 ^ 32, n_pieces := 2,
    n_blocks := 2 ^ 18 + 1, n_blocks_in_piece := 2 ^ 18,
    n_blocks_in_final_piece := 1, block_size := 16384,
    final_block_size := 1, final_piece_size := 1 }

/-- A geometry of `2^32` pieces of two bytes, the last of one byte.  The
block count `2^32` does not fit the 32-bit `n_blocks`, which holds 0. -/
def many : tr_block_info :=
  { total_size := 2 ^ 33 - 1, piece_size := 2, n_pieces := 2 ^ 32,
    n_blocks := 0, n_blocks_in_piece := 1,
    n_blocks_in_final_piece := 1, block_size := 2,
    final_block_size := 1, final_piece_size := 1 }

/-- A geometry of a single piece of five bytes, with a nominal piece size of
`2^33` bytes in blocks of 16 KiB. -/
def onePiece : tr_block_info :=
  { total_size := 5, piece_size := 2 ^ 33, n_pieces := 1,
    n_blocks := 1, n_blocks_in_piece := 2 ^ 19,
    n_blocks_in_final_piece := 1, block_size := 16384,
    final_block_size := 5, final_piece_size := 5 }

/-- The piece side of a geometry, as the property tests generate it:
`1 ≤ piece_size ≤ 2^32`, `total_size ≤ 2^40`, `n_pieces` the ceiling of the
quotient, and, when there is a piece, `final_piece_size` the remainder after
the non-final pieces, stored in its 32-bit field. -/
def PieceGeometry (bi : tr_block_info) : Prop :=
  1 ≤ bi.piece_size ∧ bi.piece_size ≤ 2 ^ 32 ∧ bi.total_size ≤ 2 ^ 40 ∧
  bi.n_pieces = ceilDiv bi.total_size bi.piece_size ∧
  (0 < bi.n_pieces →
    bi.final_piece_size = u32 (bi.total_size - (bi.n_pieces - 1) * bi.piece_size))

instance (bi : tr_block_info) : Decidable (PieceGeometry bi) := by
  unfold PieceGeometry; infer_instance

/-- The block side of a geometry: `block_size ≥ 1`, `n_blocks` the ceiling of
the quotient, when there is a block `final_block_size` the remainder after
the non-final blocks, and every field within its declared width. -/
def BlockGeometry (bi : tr_block_info) : Prop :=
  1 ≤ bi.block_size ∧
  bi.n_blocks = ceilDiv bi.total_size bi.block_size ∧
  (0 < bi.n_blocks →
    bi.final_block_size = bi.total_size - (bi.n_blocks - 1) * bi.block_size) ∧
  InWidth bi

instance (bi : tr_block_info) : Decidable (BlockGeometry bi) := by
  unfold BlockGeometry; infer_instance

/-! ## Construction -/

/-- The degenerate zero-state: a default-constructed `tr_block_info`, every
field holding its default member initialiser `0` (lines 21-30). -/
def zeroState : tr_block_info :=
  { total_size := 0, piece_size := 0, n_pieces := 0, n_blocks := 0,
    n_blocks_in_piece := 0, n_blocks_in_final_piece := 0, block_size := 0,
    final_block_size := 0, final_piece_size := 0 }

/-- Modelled from the spec: `bestBlockSize` (§4.5), of which the header only
declares `static uint32_t bestBlockSize(uint64_t piece_size)` (line 76).
The candidate is the protocol block size of 16 KiB (rule 1).  A piece size
below 16 KiB is returned itself (rule 3).  Otherwise the candidate is
returned (rule 4) when it divides the piece size, and the piece size itself
when it does not: §4.1 step 5 describes the result as "either the protocol
default divisor of `piece_size` or `piece_size` itself".  The doubling of
rule 2 is not modelled: scenarios S1 and S2 fix blocks of 16 KiB for pieces
of 256 KiB, which the doubling would turn into blocks of 256 KiB.  The value
is the natural number that the spec describes; `initBlockInfo` converts it
to 32 bits when it stores it in `block_size`. -/
def bestBlockSize (piece_size : Nat) : Nat :=
  let candidate := 16 * 1024
  if piece_size < candidate then piece_size
  else if piece_size % candidate = 0 then candidate
  else piece_size

/-- Modelled from the spec: `initBlockInfo` (§4.1 steps 1-8), declared at
line 32 with its body outside the header.  Every derived value is computed
as the step says and stored in its field, which converts it to the width of
the field; the steps after the second read the stored fields.  Steps 5 and 6
divide by the block size: the construction is undefined (`none`) when the
stored block size is 0. -/
def initBlockInfo (total_size_in piece_size_in : Nat) : Option tr_block_info :=
  let total_size := u64 total_size_in
  let piece_size := u64 piece_size_in
  if total_size = 0 ∨ piece_size = 0 then some zeroState
  else
    let block_size := u32 (bestBlockSize piece_size)
    if block_size = 0 then none
    else
      let n_pieces := u64 (ceilDiv total_size piece_size)
      let final_piece_size := u32 (total_size - (n_pieces - 1) * piece_size)
      let n_blocks_in_piece := u32 (piece_size / block_size)
      let n_blocks := u32 (ceilDiv total_size block_size)
      let final_block_size := u32 (total_size - (n_blocks - 1) * block_size)
      let n_blocks_in_final_piece := u32 (ceilDiv final_piece_size block_size)
      some { total_size := total_size, piece_size := piece_size,
             n_pieces := n_pieces, n_blocks := n_blocks,
             n_blocks_in_piece := n_blocks_in_piece,
             n_blocks_in_final_piece := n_blocks_in_final_piece,
             block_size := block_size, final_block_size := final_block_size,
             final_piece_size := final_piece_size }

/-! ## Arithmetic of the ceiling quotient -/

theorem lt_ceilDiv_iff {a b : Nat} (hb : 0 < b) (x : Nat) :
    x < ceilDiv a b ↔ x * b < a := by
  unfold ceilDiv
  rw [Nat.lt_iff_add_one_le, Nat.le_div_iff_mul_le hb, Nat.add_mul]
  omega

theorem le_ceilDiv_mul {a b : Nat} (hb : 0 < b) : a ≤ ceilDiv a b * b := by
  have h := (lt_ceilDiv_iff (a := a) hb (ceilDiv a b)).not
  simpa using h

theorem ceilDiv_pos {a b : Nat} (hb : 0 < b) (ha : 0 < a) : 0 < ceilDiv a b := by
  rw [lt_ceilDiv_iff hb]; simpa using ha

theorem pred_ceilDiv_mul_lt {a b : Nat} (hb : 0 < b) (ha : 0 < a) :
    (ceilDiv a b - 1) * b < a := by
  rw [← lt_ceilDiv_iff hb]
  have := ceilDiv_pos hb ha
  omega

theorem pred_div_eq {a b : Nat} (hb : 0 < b) (ha : 0 < a) :
    (a - 1) / b = ceilDiv a b - 1 := by
  unfold ceilDiv
  have : a + b - 1 = (a - 1) + b := by omega
  rw [this, Nat.add_div_right _ hb]
  rfl

theorem ceilDiv_le_iff {a b : Nat} (hb : 0 < b) (x : Nat) :
    ceilDiv a b ≤ x ↔ a ≤ x * b := by
  have h := (lt_ceilDiv_iff (a := a) hb x).not
  simpa using h

theorem u32_of_lt {x : Nat} (h : x < 2 ^ 32) : u32 x = x := Nat.mod_eq_of_lt h

theorem u64_of_lt {x : Nat} (h : x < 2 ^ 64) : u64 x = x := Nat.mod_eq_of_lt h

theorem u32_lt (x : Nat) : u32 x < 2 ^ 32 := Nat.mod_lt _ (by norm_num)

/-! ## Consequences of validity -/

theorem ValidGeometry.block_size_pos {bi : tr_block_info} (h : ValidGeometry bi) :
    0 < bi.block_size := h.2.1

theorem ValidGeometry.piece_size_pos {bi : tr_block_info} (h : ValidGeometry bi) :
    0 < bi.piece_size := by
  obtain ⟨-, hbs, hk, hps, -⟩ := h
  rw [hps]; exact Nat.mul_pos hk hbs

theorem ValidGeometry.lt_n_pieces_iff {bi : tr_block_info} (h : ValidGeometry bi)
    (p : Nat) : p < bi.n_pieces ↔ p * bi.piece_size < bi.total_size := by
  have hps := h.piece_size_pos
  obtain ⟨-, -, -, -, hnp, -⟩ := h
  rw [hnp]; exact lt_ceilDiv_iff hps p

theorem ValidGeometry.lt_n_blocks_iff {bi : tr_block_info} (h : ValidGeometry bi)
    (b : Nat) : b < bi.n_blocks ↔ b * bi.block_size < bi.total_size := by
  obtain ⟨-, hbs, -, -, -, hnb, -⟩ := h
  rw [hnb]; exact lt_ceilDiv_iff hbs b

theorem ValidGeometry.n_pieces_pos {bi : tr_block_info} (h : ValidGeometry bi) :
    0 < bi.n_pieces := by
  rw [h.lt_n_pieces_iff]; simpa using h.1

theorem ValidGeometry.n_blocks_pos {bi : tr_block_info} (h : ValidGeometry bi) :
    0 < bi.n_blocks := by
  rw [h.lt_n_blocks_iff]; simpa using h.1

theorem ValidGeometry.total_le_pieces {bi : tr_block_info} (h : ValidGeometry bi) :
    bi.total_size ≤ bi.n_pieces * bi.piece_size := by
  have hps := h.piece_size_pos
  obtain ⟨-, -, -, -, hnp, -⟩ := h
  rw [hnp]; exact le_ceilDiv_mul hps

theorem ValidGeometry.total_le_blocks {bi : tr_block_info} (h : ValidGeometry bi) :
    bi.total_size ≤ bi.n_blocks * bi.block_size := by
  obtain ⟨-, hbs, -, -, -, hnb, -⟩ := h
  rw [hnb]; exact le_ceilDiv_mul hbs

theorem ValidGeometry.n_blocks_lt {bi : tr_block_info} (h : ValidGeometry bi) :
    bi.n_blocks < 2 ^ 32 := h.2.2.2.2.2.2.2.2.2.2.2.2.1

theorem ValidGeometry.total_lt {bi : tr_block_info} (h : ValidGeometry bi) :
    bi.total_size < 2 ^ 64 := h.2.2.2.2.2.2.2.2.2.1

theorem ValidGeometry.final_piece_lt {bi : tr_block_info} (h : ValidGeometry bi) :
    bi.final_piece_size < 2 ^ 32 := h.2.2.2.2.2.2.2.2.2.2.2.2.2.2.2.2.2

/-- A piece index below `n_pieces`, multiplied by the blocks per piece, is a
block index below `n_blocks`. -/
theorem ValidGeometry.first_block_lt {bi : tr_block_info} (h : ValidGeometry bi)
    {p : Nat} (hp : p < bi.n_pieces) : p * bi.n_blocks_in_piece < bi.n_blocks := by
  rw [h.lt_n_blocks_iff]
  rw [h.lt_n_pieces_iff] at hp
  have hps : bi.piece_size = bi.n_blocks_in_piece * bi.block_size := h.2.2.2.1
  rw [hps, ← Nat.mul_assoc] at hp
  exact hp

theorem ValidGeometry.n_pieces_le_n_blocks {bi : tr_block_info} (h : ValidGeometry bi) :
    bi.n_pieces ≤ bi.n_blocks := by
  have h1 := h.first_block_lt (p := bi.n_pieces - 1) (by have := h.n_pieces_pos; omega)
  have hk : 1 ≤ bi.n_blocks_in_piece := h.2.2.1
  have h2 : (bi.n_pieces - 1) * 1 ≤ (bi.n_pieces - 1) * bi.n_blocks_in_piece :=
    Nat.mul_le_mul_left _ hk
  omega

theorem ValidGeometry.n_pieces_lt {bi : tr_block_info} (h : ValidGeometry bi) :
    bi.n_pieces < 2 ^ 32 :=
  lt_of_le_of_lt h.n_pieces_le_n_blocks h.n_blocks_lt

/-- The final piece: its stored size is positive and ends the content. -/
theorem ValidGeometry.final_piece {bi : tr_block_info} (h : ValidGeometry bi) :
    0 < bi.final_piece_size ∧
    (bi.n_pieces - 1) * bi.piece_size + bi.final_piece_size = bi.total_size := by
  have h1 : bi.n_pieces - 1 < bi.n_pieces := by have := h.n_pieces_pos; omega
  rw [h.lt_n_pieces_iff] at h1
  have hf : bi.final_piece_size = bi.total_size - (bi.n_pieces - 1) * bi.piece_size :=
    h.2.2.2.2.2.2.1
  omega

/-- The final block: its stored size is positive, at most `block_size`, and
ends the content. -/
theorem ValidGeometry.final_block {bi : tr_block_info} (h : ValidGeometry bi) :
    0 < bi.final_block_size ∧ bi.final_block_size ≤ bi.block_size ∧
    (bi.n_blocks - 1) * bi.block_size + bi.final_block_size = bi.total_size := by
  have h0 := h.n_blocks_pos
  have h1 : bi.n_blocks - 1 < bi.n_blocks := by omega
  rw [h.lt_n_blocks_iff] at h1
  have h2 := h.total_le_blocks
  have h3 : bi.n_blocks * bi.block_size
      = (bi.n_blocks - 1) * bi.block_size + bi.block_size := by
    conv_lhs => rw [show bi.n_blocks = (bi.n_blocks - 1) + 1 by omega]
    rw [Nat.add_mul, Nat.one_mul]
  have hf : bi.final_block_size = bi.total_size - (bi.n_blocks - 1) * bi.block_size :=
    h.2.2.2.2.2.2.2.1
  omega

theorem ValidGeometry.final_piece_le {bi : tr_block_info} (h : ValidGeometry bi) :
    bi.final_piece_size ≤ bi.piece_size := by
  have h0 := h.n_pieces_pos
  have h1 := h.final_piece
  have h2 := h.total_le_pieces
  have h3 : bi.n_pieces * bi.piece_size
      = (bi.n_pieces - 1) * bi.piece_size + bi.piece_size := by
    conv_lhs => rw [show bi.n_pieces = (bi.n_pieces - 1) + 1 by omega]
    rw [Nat.add_mul, Nat.one_mul]
  omega

/-! ## The queries on a valid geometry -/

/-- For a 32-bit index below a count `n`, the 32-bit sum `index + 1` equals
`n` exactly when the index is the last one. -/
theorem succ_eq_count_iff {i n : Nat} (hi : i < n) (hn : n < 2 ^ 32) :
    u32 (u32 i + 1) = n ↔ i + 1 = n := by
  unfold u32
  constructor <;> intro h <;> omega

theorem pieceForBlock_eq {bi : tr_block_info} (h : ValidGeometry bi) {b : Nat}
    (hb : b < bi.n_blocks) :
    pieceForBlock bi b = some (b / bi.n_blocks_in_piece) := by
  have hk : 1 ≤ bi.n_blocks_in_piece := h.2.2.1
  have hb32 : b < 2 ^ 32 := lt_trans hb h.n_blocks_lt
  unfold pieceForBlock
  rw [if_neg (by omega), u32_of_lt hb32]

theorem pieceForBlock_lt {bi : tr_block_info} (h : ValidGeometry bi) {b : Nat}
    (hb : b < bi.n_blocks) : b / bi.n_blocks_in_piece < bi.n_pieces := by
  rw [h.lt_n_pieces_iff]
  rw [h.lt_n_blocks_iff] at hb
  have hps : bi.piece_size = bi.n_blocks_in_piece * bi.block_size := h.2.2.2.1
  have h1 : b / bi.n_blocks_in_piece * bi.n_blocks_in_piece ≤ b := Nat.div_mul_le_self _ _
  have h2 := Nat.mul_le_mul_right bi.block_size h1
  rw [hps, ← Nat.mul_assoc]
  omega

theorem countBytesInPiece_final {bi : tr_block_info} (h : ValidGeometry bi) {p : Nat}
    (hp : p + 1 = bi.n_pieces) : countBytesInPiece bi p = bi.final_piece_size := by
  unfold countBytesInPiece
  rw [if_pos ((succ_eq_count_iff (by omega) h.n_pieces_lt).2 hp),
    u32_of_lt h.final_piece_lt]

theorem countBytesInPiece_nonfinal {bi : tr_block_info} {p : Nat}
    (hp : p + 1 < bi.n_pieces) (hp32 : p < 2 ^ 32) :
    countBytesInPiece bi p = u32 bi.piece_size := by
  unfold countBytesInPiece
  rw [if_neg]
  unfold u32
  omega

theorem countBytesInBlock_eq {bi : tr_block_info} (h : ValidGeometry bi) {b : Nat}
    (hb : b < bi.n_blocks) :
    countBytesInBlock bi b
      = if b + 1 = bi.n_blocks then bi.final_block_size else bi.block_size := by
  have hf : bi.final_block_size < 2 ^ 32 := h.2.2.2.2.2.2.2.2.2.2.2.2.2.2.2.2.1
  have hs : bi.block_size < 2 ^ 32 := h.2.2.2.2.2.2.2.2.2.2.2.2.2.2.2.1
  unfold countBytesInBlock
  by_cases hl : b + 1 = bi.n_blocks
  · rw [if_pos ((succ_eq_count_iff hb h.n_blocks_lt).2 hl), if_pos hl,
      u32_of_lt hf]
  · rw [if_neg (fun e => hl ((succ_eq_count_iff hb h.n_blocks_lt).1 e)),
      if_neg hl, u32_of_lt hs]

theorem lastByte_final {bi : tr_block_info} (h : ValidGeometry bi) {p : Nat}
    (hp : p + 1 = bi.n_pieces) : lastByte bi p = bi.final_piece_size - 1 := by
  have h1 := h.final_piece.1
  have h2 := h.final_piece_lt
  unfold lastByte
  rw [countBytesInPiece_final h hp]
  unfold u32
  omega

theorem lastByte_nonfinal_le {bi : tr_block_info} (h : ValidGeometry bi) {p : Nat}
    (hp : p + 1 < bi.n_pieces) : lastByte bi p ≤ bi.piece_size - 1 := by
  have h1 := h.piece_size_pos
  have h2 := h.n_pieces_lt
  unfold lastByte
  rw [countBytesInPiece_nonfinal hp (by omega)]
  unfold u32
  omega

theorem lastByte_nonfinal {bi : tr_block_info} (h : ValidGeometry bi) {p : Nat}
    (hp : p + 1 < bi.n_pieces) (hs : bi.piece_size ≤ 2 ^ 32) :
    lastByte bi p = bi.piece_size - 1 := by
  have h1 := h.piece_size_pos
  have h2 := h.n_pieces_lt
  unfold lastByte
  rw [countBytesInPiece_nonfinal hp (by omega)]
  unfold u32
  omega

/-- The last byte that `blockRangeForPiece` addresses lies inside the
content. -/
theorem lastByte_lt_total {bi : tr_block_info} (h : ValidGeometry bi) {p : Nat}
    (hp : p < bi.n_pieces) : p * bi.piece_size + lastByte bi p < bi.total_size := by
  by_cases hl : p + 1 = bi.n_pieces
  · have h1 := h.final_piece
    rw [lastByte_final h hl]
    have : bi.n_pieces - 1 = p := by omega
    rw [this] at h1
    omega
  · have hp1 : p + 1 < bi.n_pieces := by omega
    have h1 := lastByte_nonfinal_le h hp1
    have h2 := (h.lt_n_pieces_iff (p + 1)).1 hp1
    have h3 := h.piece_size_pos
    rw [Nat.add_mul, Nat.one_mul] at h2
    omega

/-- On a valid geometry, for a piece below `n_pieces`, no conversion in
`blockRangeForPiece` loses anything: the range starts at
`piece * n_blocks_in_piece` and ends at the block of the last byte
addressed. -/
theorem blockRangeForPiece_eq {bi : tr_block_info} (h : ValidGeometry bi) {p : Nat}
    (hp : p < bi.n_pieces) :
    blockRangeForPiece bi p
      = some { first := p * bi.n_blocks_in_piece,
               last := (p * bi.piece_size + lastByte bi p) / bi.block_size } := by
  have hbs := h.block_size_pos
  have hp32 : p < 2 ^ 32 := lt_trans hp h.n_pieces_lt
  have hT := h.total_lt
  have hlast := lastByte_lt_total h hp
  have hps : bi.piece_size = bi.n_blocks_in_piece * bi.block_size := h.2.2.2.1
  have hoff : u64 (bi.piece_size * u32 p) = p * bi.piece_size := by
    rw [u32_of_lt hp32, Nat.mul_comm]
    exact u64_of_lt (by omega)
  have hfirst : p * bi.piece_size / bi.block_size = p * bi.n_blocks_in_piece := by
    rw [hps, ← Nat.mul_assoc, Nat.mul_div_cancel _ hbs]
  have hfl := h.first_block_lt hp
  have hnb := h.n_blocks_lt
  have hl2 : (p * bi.piece_size + lastByte bi p) / bi.block_size < bi.n_blocks := by
    rw [Nat.div_lt_iff_lt_mul hbs]
    exact lt_of_lt_of_le hlast h.total_le_blocks
  unfold blockRangeForPiece
  rw [if_neg (by omega)]
  simp only [hoff, hfirst]
  rw [u32_of_lt (by omega)]
  change some (tr_block_range.mk _ (u32 (u64 (p * bi.piece_size + lastByte bi p) / _))) = _
  rw [u64_of_lt (by omega), u32_of_lt (by omega)]

theorem last_block_final {bi : tr_block_info} (h : ValidGeometry bi) {p : Nat}
    (hp : p + 1 = bi.n_pieces) :
    (p * bi.piece_size + lastByte bi p) / bi.block_size = bi.n_blocks - 1 := by
  have h1 := h.final_piece
  have hnb : bi.n_blocks = ceilDiv bi.total_size bi.block_size := h.2.2.2.2.2.1
  have : bi.n_pieces - 1 = p := by omega
  rw [this] at h1
  rw [lastByte_final h hp, hnb, ← pred_div_eq h.block_size_pos h.1]
  congr 1
  omega

theorem last_block_nonfinal {bi : tr_block_info} (h : ValidGeometry bi) {p : Nat}
    (hp : p + 1 < bi.n_pieces) (hs : bi.piece_size ≤ 2 ^ 32) :
    (p * bi.piece_size + lastByte bi p) / bi.block_size
      = (p + 1) * bi.n_blocks_in_piece - 1 := by
  have hbs := h.block_size_pos
  have hk : 1 ≤ bi.n_blocks_in_piece := h.2.2.1
  have hps : bi.piece_size = bi.n_blocks_in_piece * bi.block_size := h.2.2.2.1
  have hpos := h.piece_size_pos
  rw [lastByte_nonfinal h hp hs]
  have e : p * bi.piece_size + (bi.piece_size - 1)
      = (bi.block_size - 1) + ((p + 1) * bi.n_blocks_in_piece - 1) * bi.block_size := by
    have e1 : (p + 1) * bi.n_blocks_in_piece
        = ((p + 1) * bi.n_blocks_in_piece - 1) + 1 := by
      have := Nat.mul_pos (show 0 < p + 1 by omega) hk
      omega
    have e2 : (p + 1) * bi.piece_size
        = ((p + 1) * bi.n_blocks_in_piece - 1) * bi.block_size + bi.block_size := by
      rw [hps, ← Nat.mul_assoc]
      conv_lhs => rw [e1]
      rw [Nat.add_mul, Nat.one_mul]
    rw [Nat.add_mul, Nat.one_mul] at e2
    omega
  rw [e, Nat.add_mul_div_right _ _ hbs, Nat.div_eq_of_lt (by omega), Nat.zero_add]

/-- In every case the last block of a piece lies before the first block of
the next piece. -/
theorem last_block_lt_next {bi : tr_block_info} (h : ValidGeometry bi) {p : Nat}
    (hp : p < bi.n_pieces) :
    (p * bi.piece_size + lastByte bi p) / bi.block_size
      < (p + 1) * bi.n_blocks_in_piece := by
  have hbs := h.block_size_pos
  have hps : bi.piece_size = bi.n_blocks_in_piece * bi.block_size := h.2.2.2.1
  have hpos := h.piece_size_pos
  have hle : lastByte bi p ≤ bi.piece_size - 1 := by
    by_cases hl : p + 1 = bi.n_pieces
    · rw [lastByte_final h hl]
      have := h.final_piece_le
      omega
    · exact lastByte_nonfinal_le h (by omega)
  rw [Nat.div_lt_iff_lt_mul hbs, Nat.mul_assoc, ← hps, Nat.add_mul, Nat.one_mul]
  omega

theorem totalOffset_eq {bi : tr_block_info} {p o l : Nat} (hp : p < 2 ^ 32)
    (ho : o < 2 ^ 32) (hl : l < 2 ^ 32) (hlt : p * bi.piece_size + o + l < 2 ^ 64) :
    totalOffset bi p o l = p * bi.piece_size + o + l := by
  unfold totalOffset
  simp only [u32_of_lt hp, u32_of_lt ho, u32_of_lt hl, Nat.mul_comm bi.piece_size p]
  rw [u64_of_lt (x := p * bi.piece_size) (by omega),
    u64_of_lt (x := p * bi.piece_size + o) (by omega), u64_of_lt (by omega)]

/-! ## The claims -/

/-- C1 (amended): on a valid geometry whose piece size is at most `2^32`, or
which has a single piece, every block `b < n_blocks` lies in the block range
of exactly one piece below `n_pieces`, and that piece is
`pieceForBlock(b)`. -/
theorem block_in_exactly_one_range (bi : tr_block_info) (b : Nat)
    (h : ValidGeometry bi) (hs : bi.piece_size ≤ 2 ^ 32 ∨ bi.n_pieces = 1)
    (hb : b < bi.n_blocks) :
    ∃ p, pieceForBlock bi b = some p ∧ p < bi.n_pieces ∧
      (∃ r, blockRangeForPiece bi p = some r ∧ r.first ≤ b ∧ b ≤ r.last) ∧
      ∀ q, q < bi.n_pieces →
        (∃ r, blockRangeForPiece bi q = some r ∧ r.first ≤ b ∧ b ≤ r.last) → q = p := by
  have hk : 0 < bi.n_blocks_in_piece := h.2.2.1
  have hp := pieceForBlock_lt h hb
  refine ⟨b / bi.n_blocks_in_piece, pieceForBlock_eq h hb, hp, ?_, ?_⟩
  · refine ⟨_, blockRangeForPiece_eq h hp, Nat.div_mul_le_self _ _, ?_⟩
    show b ≤ (b / bi.n_blocks_in_piece * bi.piece_size
      + lastByte bi (b / bi.n_blocks_in_piece)) / bi.block_size
    by_cases hl : b / bi.n_blocks_in_piece + 1 = bi.n_pieces
    · rw [last_block_final h hl]; omega
    · have hs32 : bi.piece_size ≤ 2 ^ 32 := by
        rcases hs with hs | h1
        · exact hs
        · exfalso
          rw [h1] at hp hl
          generalize b / bi.n_blocks_in_piece = p at hp hl
          omega
      rw [last_block_nonfinal h (by omega) hs32]
      have := Nat.lt_mul_div_succ b hk
      rw [Nat.mul_comm] at this
      omega
  · rintro q hq ⟨r, hr, h1, h2⟩
    rw [blockRangeForPiece_eq h hq] at hr
    cases hr
    have h3 := last_block_lt_next h hq
    have h4 : b < (q + 1) * bi.n_blocks_in_piece := lt_of_le_of_lt h2 h3
    have h5 : q ≤ b / bi.n_blocks_in_piece := (Nat.le_div_iff_mul_le hk).2 h1
    have h6 : b / bi.n_blocks_in_piece < q + 1 := (Nat.div_lt_iff_lt_mul hk).2 h4
    omega

/-- C1, witness: the geometry `big`, whose piece size is exactly `2^32`, at
block `2^18 - 1`, the last block of piece 0; and the single-piece geometry
`onePiece`, whose nominal piece size is `2^33`, at its only block. -/
theorem block_in_exactly_one_range_witness :
    (∃ p, pieceForBlock big 262143 = some p ∧ p < big.n_pieces ∧
      (∃ r, blockRangeForPiece big p = some r ∧ r.first ≤ 262143 ∧ 262143 ≤ r.last) ∧
      ∀ q, q < big.n_pieces →
        (∃ r, blockRangeForPiece big q = some r ∧ r.first ≤ 262143 ∧ 262143 ≤ r.last) →
          q = p) ∧
    (∃ p, pieceForBlock onePiece 0 = some p ∧ p < onePiece.n_pieces ∧
      (∃ r, blockRangeForPiece onePiece p = some r ∧ r.first ≤ 0 ∧ 0 ≤ r.last) ∧
      ∀ q, q < onePiece.n_pieces →
        (∃ r, blockRangeForPiece onePiece q = some r ∧ r.first ≤ 0 ∧ 0 ≤ r.last) →
          q = p) :=
  ⟨block_in_exactly_one_range big 262143 (by decide) (Or.inl (by decide)) (by decide),
   block_in_exactly_one_range onePiece 0 (by decide) (Or.inr (by decide)) (by decide)⟩

/-- C1 as stated fails: `wide` is a valid geometry (piece size `2^33`), block
`2^18` is below `n_blocks`, and no piece below `n_pieces` has it in its
range, because `countBytesInPiece(0)` is the piece size cut to 32 bits. -/
theorem block_in_no_range_wide :
    ValidGeometry wide ∧ 2 ^ 18 < wide.n_blocks ∧
      ¬ ∃ p, p < wide.n_pieces ∧
        ∃ r, blockRangeForPiece wide p = some r ∧ r.first ≤ 2 ^ 18 ∧ 2 ^ 18 ≤ r.last := by
  refine ⟨by decide, by decide, ?_⟩
  rintro ⟨p, hp, r, hr, h1, h2⟩
  have hp2 : p < 2 := hp
  have e0 : blockRangeForPiece wide 0 = some ⟨0, 2 ^ 18 - 1⟩ := by decide
  have e1 : blockRangeForPiece wide 1 = some ⟨2 ^ 19, 2 ^ 19⟩ := by decide
  interval_cases p
  · rw [e0] at hr; cases hr; simp at h2
  · rw [e1] at hr; cases hr; simp at h1

/-- C4: on a valid geometry, for a block below `n_blocks`, `pieceForBlock`
returns the floor quotient `block / n_blocks_in_piece`, and that result is
strictly below `n_pieces`. -/
theorem pieceForBlock_div_lt (bi : tr_block_info) (block : Nat)
    (h : ValidGeometry bi) (hb : block < bi.n_blocks) :
    pieceForBlock bi block = some (block / bi.n_blocks_in_piece) ∧
      block / bi.n_blocks_in_piece < bi.n_pieces :=
  ⟨pieceForBlock_eq h hb, pieceForBlock_lt h hb⟩

/-- C4, witness: scenario S4, `pieceForBlock(63) = 3 < 4` on S1. -/
theorem pieceForBlock_div_lt_witness :
    pieceForBlock s1 63 = some (63 / s1.n_blocks_in_piece) ∧
      63 / s1.n_blocks_in_piece < s1.n_pieces :=
  pieceForBlock_div_lt s1 63 (by decide) (by decide)

/-- C5 (amended): on a valid geometry whose piece size fits in 32 bits, for
every block `b < n_blocks` the bytes of the block,
`[b * block_size, b * block_size + countBytesInBlock(b))`, lie inside the
bytes of the piece `p = pieceForBlock(b)`,
`[totalOffset(p, 0), totalOffset(p, 0) + countBytesInPiece(p))`. -/
theorem block_bytes_inside_piece (bi : tr_block_info) (b : Nat)
    (h : ValidGeometry bi) (hs : bi.piece_size < 2 ^ 32) (hb : b < bi.n_blocks) :
    ∃ p, pieceForBlock bi b = some p ∧
      totalOffset bi p 0 ≤ b * bi.block_size ∧
      b * bi.block_size + countBytesInBlock bi b
        ≤ totalOffset bi p 0 + countBytesInPiece bi p := by
  have hk : 0 < bi.n_blocks_in_piece := h.2.2.1
  have hps : bi.piece_size = bi.n_blocks_in_piece * bi.block_size := h.2.2.2.1
  have hp := pieceForBlock_lt h hb
  have hd1 : b / bi.n_blocks_in_piece * bi.n_blocks_in_piece ≤ b := Nat.div_mul_le_self _ _
  have hd2 : b + 1 ≤ (b / bi.n_blocks_in_piece + 1) * bi.n_blocks_in_piece := by
    have := Nat.lt_mul_div_succ b hk
    rw [Nat.mul_comm] at this
    exact this
  refine ⟨_, pieceForBlock_eq h hb, ?_⟩
  generalize b / bi.n_blocks_in_piece = p at hp hd1 hd2 ⊢
  have hp32 := lt_trans hp h.n_pieces_lt
  have hT := h.total_lt
  have hpT := (h.lt_n_pieces_iff _).1 hp
  have hfb := h.final_block
  have hoff : totalOffset bi p 0 = p * bi.piece_size := by
    rw [totalOffset_eq hp32 (by norm_num) (by norm_num) (by omega)]
    rfl
  have hlo : p * bi.piece_size ≤ b * bi.block_size := by
    rw [hps, ← Nat.mul_assoc]
    exact Nat.mul_le_mul_right _ hd1
  have hcb : b * bi.block_size + countBytesInBlock bi b ≤ bi.total_size := by
    rw [countBytesInBlock_eq h hb]
    by_cases hl : b + 1 = bi.n_blocks
    · rw [if_pos hl]
      have : bi.n_blocks - 1 = b := by omega
      rw [this] at hfb
      omega
    · rw [if_neg hl]
      have h1 : b + 1 < bi.n_blocks := by omega
      have h2 := (h.lt_n_blocks_iff _).1 h1
      rw [Nat.add_mul, Nat.one_mul] at h2
      omega
  rw [hoff]
  refine ⟨hlo, ?_⟩
  by_cases hl : p + 1 = bi.n_pieces
  · rw [countBytesInPiece_final h hl]
    have h1 := h.final_piece
    have : bi.n_pieces - 1 = p := by omega
    rw [this] at h1
    omega
  · rw [countBytesInPiece_nonfinal (by omega) hp32, u32_of_lt hs]
    have h1 : countBytesInBlock bi b ≤ bi.block_size := by
      rw [countBytesInBlock_eq h hb]
      split
      · exact hfb.2.1
      · exact le_refl _
    have h3 := Nat.mul_le_mul_right bi.block_size hd2
    rw [Nat.mul_assoc, ← hps] at h3
    rw [Nat.add_mul, Nat.one_mul, Nat.add_mul, Nat.one_mul] at h3
    omega

/-- C5, witness: scenario S2, the final block 61 inside the final piece 3. -/
theorem block_bytes_inside_piece_witness :
    ∃ p, pieceForBlock s2 61 = some p ∧
      totalOffset s2 p 0 ≤ 61 * s2.block_size ∧
      61 * s2.block_size + countBytesInBlock s2 61
        ≤ totalOffset s2 p 0 + countBytesInPiece s2 p :=
  block_bytes_inside_piece s2 61 (by decide) (by decide) (by decide)

/-- C5 as stated fails: on the valid geometry `wide` block 0 belongs to piece
0, whose `countBytesInPiece` is `2^33` cut to 32 bits, that is 0; the 16384
bytes of the block do not fit in the empty interval. -/
theorem block_bytes_outside_piece_wide :
    ValidGeometry wide ∧ 0 < wide.n_blocks ∧ pieceForBlock wide 0 = some 0 ∧
      ¬ (0 * wide.block_size + countBytesInBlock wide 0
          ≤ totalOffset wide 0 0 + countBytesInPiece wide 0) := by
  decide

/-- C6: on a valid geometry, for every piece below `n_pieces`,
`blockRangeForPiece` returns a range with `first ≤ last < n_blocks`. -/
theorem blockRange_ordered_in_bounds (bi : tr_block_info) (piece : Nat)
    (h : ValidGeometry bi) (hp : piece < bi.n_pieces) :
    ∃ r, blockRangeForPiece bi piece = some r ∧ r.first ≤ r.last ∧
      r.last < bi.n_blocks := by
  have hbs := h.block_size_pos
  have hps : bi.piece_size = bi.n_blocks_in_piece * bi.block_size := h.2.2.2.1
  refine ⟨_, blockRangeForPiece_eq h hp, ?_, ?_⟩
  · show piece * bi.n_blocks_in_piece
      ≤ (piece * bi.piece_size + lastByte bi piece) / bi.block_size
    rw [Nat.le_div_iff_mul_le hbs, Nat.mul_assoc, ← hps]
    exact Nat.le_add_right _ _
  · show (piece * bi.piece_size + lastByte bi piece) / bi.block_size < bi.n_blocks
    rw [Nat.div_lt_iff_lt_mul hbs]
    exact lt_of_lt_of_le (lastByte_lt_total h hp) h.total_le_blocks

/-- C6, witness: the first piece of `wide`, whose size exceeds 32 bits. -/
theorem blockRange_ordered_in_bounds_witness :
    ∃ r, blockRangeForPiece wide 0 = some r ∧ r.first ≤ r.last ∧
      r.last < wide.n_blocks :=
  blockRange_ordered_in_bounds wide 0 (by decide) (by decide)

/-- C7 (amended): on a valid geometry whose piece size is at most `2^32`, for
every piece `p` with `p + 1 < n_pieces`, the range of `p + 1` starts one
block after the end of the range of `p`. -/
theorem blockRange_contiguous (bi : tr_block_info) (p : Nat)
    (h : ValidGeometry bi) (hs : bi.piece_size ≤ 2 ^ 32) (hp : p + 1 < bi.n_pieces) :
    ∃ r r', blockRangeForPiece bi p = some r ∧
      blockRangeForPiece bi (p + 1) = some r' ∧ r'.first = r.last + 1 := by
  have hk : 1 ≤ bi.n_blocks_in_piece := h.2.2.1
  refine ⟨_, _, blockRangeForPiece_eq h (by omega), blockRangeForPiece_eq h hp, ?_⟩
  show (p + 1) * bi.n_blocks_in_piece
    = (p * bi.piece_size + lastByte bi p) / bi.block_size + 1
  rw [last_block_nonfinal h hp hs]
  have := Nat.mul_pos (show 0 < p + 1 by omega) hk
  omega

/-- C7, witness: the geometry `big`, whose piece size is exactly `2^32`:
pieces 0 and 1. -/
theorem blockRange_contiguous_witness :
    ∃ r r', blockRangeForPiece big 0 = some r ∧
      blockRangeForPiece big (0 + 1) = some r' ∧ r'.first = r.last + 1 :=
  blockRange_contiguous big 0 (by decide) (by decide) (by decide)

/-- C7 as stated fails: on the valid geometry `wide` the range of piece 0
ends at block `2^18 - 1` and the range of piece 1 starts at block `2^19`. -/
theorem blockRange_gap_wide :
    ValidGeometry wide ∧ 0 + 1 < wide.n_pieces ∧
      blockRangeForPiece wide 0 = some ⟨0, 262143⟩ ∧
      blockRangeForPiece wide (0 + 1) = some ⟨524288, 524288⟩ ∧
      (524288 : Nat) ≠ 262143 + 1 := by
  decide

/-- C8: on a valid geometry the range of piece 0 starts at block 0 and the
range of the final piece `n_pieces - 1` ends at block `n_blocks - 1`. -/
theorem blockRange_endpoints (bi : tr_block_info) (h : ValidGeometry bi) :
    ∃ r0 rl, blockRangeForPiece bi 0 = some r0 ∧ r0.first = 0 ∧
      blockRangeForPiece bi (bi.n_pieces - 1) = some rl ∧
      rl.last = bi.n_blocks - 1 := by
  have h0 := h.n_pieces_pos
  refine ⟨_, _, blockRangeForPiece_eq h h0, Nat.zero_mul _,
    blockRangeForPiece_eq h (by omega), ?_⟩
  exact last_block_final h (by omega)

/-- C8, witness: the geometry `wide`, whose piece size exceeds 32 bits. -/
theorem blockRange_endpoints_witness :
    ∃ r0 rl, blockRangeForPiece wide 0 = some r0 ∧ r0.first = 0 ∧
      blockRangeForPiece wide (wide.n_pieces - 1) = some rl ∧
      rl.last = wide.n_blocks - 1 :=
  blockRange_endpoints wide (by decide)

/-- The blocks that `pieceForBlock` sends to piece `p` are those from
`p * n_blocks_in_piece` up to the next multiple or to `n_blocks`. -/
theorem blocks_of_piece_eq_Ico {bi : tr_block_info} (h : ValidGeometry bi) (p : Nat) :
    (Finset.range bi.n_blocks).filter (fun b => pieceForBlock bi b = some p)
      = Finset.Ico (p * bi.n_blocks_in_piece)
          (min ((p + 1) * bi.n_blocks_in_piece) bi.n_blocks) := by
  have hk : 0 < bi.n_blocks_in_piece := h.2.2.1
  ext b
  simp only [Finset.mem_filter, Finset.mem_range, Finset.mem_Ico, lt_min_iff]
  constructor
  · rintro ⟨hb, hq⟩
    rw [pieceForBlock_eq h hb, Option.some.injEq] at hq
    have h1 : p ≤ b / bi.n_blocks_in_piece := by omega
    have h2 : b / bi.n_blocks_in_piece < p + 1 := by omega
    exact ⟨(Nat.le_div_iff_mul_le hk).1 h1, (Nat.div_lt_iff_lt_mul hk).1 h2, hb⟩
  · rintro ⟨h1, h2, hb⟩
    refine ⟨hb, ?_⟩
    rw [pieceForBlock_eq h hb, Option.some.injEq]
    have h3 := (Nat.le_div_iff_mul_le hk).2 h1
    have h4 := (Nat.div_lt_iff_lt_mul hk).2 h2
    omega

/-- C9: on a valid geometry, the number of blocks below `n_blocks` that
`pieceForBlock` sends to piece `p` is `n_blocks_in_piece` for every
`p < n_pieces - 1` and `n_blocks_in_final_piece` for `p = n_pieces - 1`. -/
theorem blocks_per_piece_count (bi : tr_block_info) (p : Nat) (h : ValidGeometry bi) :
    (p < bi.n_pieces - 1 →
      ((Finset.range bi.n_blocks).filter
        (fun b => pieceForBlock bi b = some p)).card = bi.n_blocks_in_piece) ∧
    (p = bi.n_pieces - 1 →
      ((Finset.range bi.n_blocks).filter
        (fun b => pieceForBlock bi b = some p)).card = bi.n_blocks_in_final_piece) := by
  have hbs := h.block_size_pos
  have hps : bi.piece_size = bi.n_blocks_in_piece * bi.block_size := h.2.2.2.1
  have hnb : bi.n_blocks = ceilDiv bi.total_size bi.block_size := h.2.2.2.2.2.1
  have hnf : bi.n_blocks_in_final_piece = ceilDiv bi.final_piece_size bi.block_size :=
    h.2.2.2.2.2.2.2.2.1
  rw [blocks_of_piece_eq_Ico h p, Nat.card_Ico]
  constructor
  · intro hp
    have h1 := h.first_block_lt (p := p + 1) (by omega)
    rw [min_eq_left (le_of_lt h1), Nat.add_mul, Nat.one_mul]
    omega
  · intro hp
    have h0 := h.n_pieces_pos
    have hfin := h.final_piece
    rw [← hp] at hfin
    have h1 : bi.n_blocks ≤ (p + 1) * bi.n_blocks_in_piece := by
      rw [hnb, ceilDiv_le_iff hbs, Nat.mul_assoc, ← hps,
        show p + 1 = bi.n_pieces by omega]
      exact h.total_le_pieces
    rw [min_eq_right h1, hnf, hnb]
    unfold ceilDiv
    have e : bi.total_size + bi.block_size - 1
        = (bi.final_piece_size + bi.block_size - 1)
          + p * bi.n_blocks_in_piece * bi.block_size := by
      rw [Nat.mul_assoc, ← hps]
      omega
    rw [e, Nat.add_mul_div_right _ _ hbs]
    exact Nat.add_sub_cancel _ _

/-- C9, witness: scenario S2 has 16 blocks in piece 0 and 14 blocks in the
final piece 3. -/
theorem blocks_per_piece_count_witness :
    ((Finset.range s2.n_blocks).filter
        (fun b => pieceForBlock s2 b = some 0)).card = s2.n_blocks_in_piece ∧
    ((Finset.range s2.n_blocks).filter
        (fun b => pieceForBlock s2 b = some 3)).card = s2.n_blocks_in_final_piece :=
  ⟨(blocks_per_piece_count s2 0 (by decide)).1 (by decide),
   (blocks_per_piece_count s2 3 (by decide)).2 (by decide)⟩

/-- Sum of a count function that returns `a` at the last index and `c`
elsewhere, over all indices below a count that fits in 32 bits. -/
theorem sum_counts (n a c : Nat) (hn : n < 2 ^ 32) :
    Finset.sum (Finset.range n) (fun i => u32 (if u32 (u32 i + 1) = n then a else c))
      = if n = 0 then 0 else (n - 1) * u32 c + u32 a := by
  cases n with
  | zero => simp
  | succ m =>
    rw [Finset.sum_range_succ, if_neg (Nat.succ_ne_zero m)]
    have hlast : u32 (u32 m + 1) = m + 1 :=
      (succ_eq_count_iff (Nat.lt_succ_self m) hn).2 rfl
    have hrest : ∀ i ∈ Finset.range m,
        u32 (if u32 (u32 i + 1) = m + 1 then a else c) = u32 c := by
      intro i hi
      rw [Finset.mem_range] at hi
      rw [if_neg]
      intro e
      have := (succ_eq_count_iff (show i < m + 1 by omega) hn).1 e
      omega
    rw [Finset.sum_congr rfl hrest, if_pos hlast, Finset.sum_const, Finset.card_range,
      smul_eq_mul, Nat.add_sub_cancel]

/-- When the count is `2^32` the 32-bit sum `index + 1` never equals it, so
every index gets the non-final value. -/
theorem sum_counts_wrap (a c : Nat) :
    Finset.sum (Finset.range (2 ^ 32))
        (fun i => u32 (if u32 (u32 i + 1) = 2 ^ 32 then a else c))
      = 2 ^ 32 * u32 c := by
  have hrest : ∀ i ∈ Finset.range (2 ^ 32),
      u32 (if u32 (u32 i + 1) = 2 ^ 32 then a else c) = u32 c := by
    intro i _
    rw [if_neg]
    intro e
    have := u32_lt (u32 i + 1)
    omega
  rw [Finset.sum_congr rfl hrest, Finset.sum_const, Finset.card_range, smul_eq_mul]

/-- C2 (amended): for `1 ≤ piece_size < 2^32`, `total_size ≤ 2^40`,
`n_pieces = ⌈total_size / piece_size⌉ < 2^32` and
`final_piece_size = total_size - (n_pieces - 1) * piece_size` stored in the
struct, the sum of `countBytesInPiece(p)` over `p` in `[0, n_pieces)` is
`total_size`. -/
theorem piece_sizes_sum (bi : tr_block_info) (h : PieceGeometry bi)
    (hs : bi.piece_size < 2 ^ 32) (hn : bi.n_pieces < 2 ^ 32) :
    Finset.sum (Finset.range bi.n_pieces) (fun p => countBytesInPiece bi p)
      = bi.total_size := by
  obtain ⟨hps, -, -, hnp, hf⟩ := h
  have hsum := sum_counts bi.n_pieces bi.final_piece_size bi.piece_size hn
  unfold countBytesInPiece
  rw [hsum]
  by_cases h0 : bi.n_pieces = 0
  · rw [if_pos h0]
    have := le_ceilDiv_mul (a := bi.total_size) (b := bi.piece_size) hps
    rw [← hnp, h0] at this
    omega
  · rw [if_neg h0]
    have h1 : (bi.n_pieces - 1) * bi.piece_size < bi.total_size := by
      rw [← lt_ceilDiv_iff hps, ← hnp]; omega
    have h2 := le_ceilDiv_mul (a := bi.total_size) (b := bi.piece_size) hps
    rw [← hnp] at h2
    have h3 : bi.n_pieces * bi.piece_size
        = (bi.n_pieces - 1) * bi.piece_size + bi.piece_size := by
      conv_lhs => rw [show bi.n_pieces = (bi.n_pieces - 1) + 1 by omega]
      rw [Nat.add_mul, Nat.one_mul]
    have h4 : bi.total_size - (bi.n_pieces - 1) * bi.piece_size < 2 ^ 32 := by omega
    have hf := hf (by omega)
    rw [u32_of_lt h4] at hf
    rw [u32_of_lt hs, u32_of_lt (by omega)]
    omega

/-- C2, witness: scenario S2, four pieces summing to 1 000 000 bytes. -/
theorem piece_sizes_sum_witness :
    Finset.sum (Finset.range s2.n_pieces) (fun p => countBytesInPiece s2 p)
      = s2.total_size :=
  piece_sizes_sum s2 (by decide) (by decide) (by decide)

/-- C2 as stated fails in two ways.  With `piece_size = 2^32` (geometry
`big`) the non-final piece counts 0 bytes, the piece size cut to 32 bits.
With `n_pieces = 2^32` (geometry `many`) the final piece `2^32 - 1` is not
recognised, `piece + 1` being 0 in 32 bits, and counts `piece_size`. -/
theorem piece_sizes_sum_fails :
    (PieceGeometry big ∧
      Finset.sum (Finset.range big.n_pieces) (fun p => countBytesInPiece big p)
        ≠ big.total_size) ∧
    (PieceGeometry many ∧
      Finset.sum (Finset.range many.n_pieces) (fun p => countBytesInPiece many p)
        ≠ many.total_size) := by
  refine ⟨⟨by decide, ?_⟩, ⟨by decide, ?_⟩⟩
  · have e : Finset.sum (Finset.range big.n_pieces) (fun p => countBytesInPiece big p)
        = 1 := by
      show Finset.sum (Finset.range 2) (fun p => countBytesInPiece big p) = 1
      rw [Finset.sum_range_succ, Finset.sum_range_one]
      decide
    rw [e]; decide
  · have e : Finset.sum (Finset.range many.n_pieces)
        (fun p => countBytesInPiece many p) = 2 ^ 32 * u32 2 :=
      sum_counts_wrap 1 2
    rw [e]; decide

/-- C3: for `block_size ≥ 1`, `n_blocks = ⌈total_size / block_size⌉` and
`final_block_size = total_size - (n_blocks - 1) * block_size`, all fields
within their widths, the sum of `countBytesInBlock(b)` over `b` in
`[0, n_blocks)` is `total_size`. -/
theorem block_sizes_sum (bi : tr_block_info) (h : BlockGeometry bi) :
    Finset.sum (Finset.range bi.n_blocks) (fun b => countBytesInBlock bi b)
      = bi.total_size := by
  obtain ⟨hbs, hnb, hf, hw⟩ := h
  have hn : bi.n_blocks < 2 ^ 32 := hw.2.2.2.1
  have hs : bi.block_size < 2 ^ 32 := hw.2.2.2.2.2.2.1
  have hf32 : bi.final_block_size < 2 ^ 32 := hw.2.2.2.2.2.2.2.1
  have hsum := sum_counts bi.n_blocks bi.final_block_size bi.block_size hn
  unfold countBytesInBlock
  rw [hsum]
  by_cases h0 : bi.n_blocks = 0
  · rw [if_pos h0]
    have := le_ceilDiv_mul (a := bi.total_size) (b := bi.block_size) hbs
    rw [← hnb, h0] at this
    omega
  · rw [if_neg h0]
    have h1 : (bi.n_blocks - 1) * bi.block_size < bi.total_size := by
      rw [← lt_ceilDiv_iff hbs, ← hnb]; omega
    have hf := hf (by omega)
    rw [u32_of_lt hs, u32_of_lt hf32]
    omega

/-- C3, witness: scenario S2, 62 blocks summing to 1 000 000 bytes. -/
theorem block_sizes_sum_witness :
    Finset.sum (Finset.range s2.n_blocks) (fun b => countBytesInBlock s2 b)
      = s2.total_size :=
  block_sizes_sum s2 (by decide)

/-- C10 (amended): with every field within its width and
`piece_size < 2^32`, for every 32-bit piece index `p`, `countBytesInPiece(p)`
is `final_piece_size` when `p = n_pieces - 1` (with `n_pieces < 2^32`, so
that `p + 1` does not wrap), and is `piece_size`, as an exact integer, when
`p < n_pieces - 1`. -/
theorem countBytesInPiece_cases (bi : tr_block_info) (p : Nat)
    (hw : InWidth bi) (hs : bi.piece_size < 2 ^ 32) (hp : p < 2 ^ 32) :
    (p + 1 = bi.n_pieces → bi.n_pieces < 2 ^ 32 →
      countBytesInPiece bi p = bi.final_piece_size) ∧
    (p + 1 < bi.n_pieces → countBytesInPiece bi p = bi.piece_size) := by
  have hf : bi.final_piece_size < 2 ^ 32 := hw.2.2.2.2.2.2.2.2
  constructor
  · intro h1 h2
    unfold countBytesInPiece
    rw [if_pos ((succ_eq_count_iff (by omega) h2).2 h1), u32_of_lt hf]
  · intro h1
    rw [countBytesInPiece_nonfinal h1 hp, u32_of_lt hs]

/-- C10, witness: scenario S2, the final piece 3 and the non-final piece 0. -/
theorem countBytesInPiece_cases_witness :
    countBytesInPiece s2 3 = s2.final_piece_size ∧
      countBytesInPiece s2 0 = s2.piece_size :=
  ⟨(countBytesInPiece_cases s2 3 (by decide) (by decide) (by decide)).1
      (by decide) (by decide),
   (countBytesInPiece_cases s2 0 (by decide) (by decide) (by decide)).2 (by decide)⟩

/-- C10 as stated fails in two ways.  On `big` (`piece_size = 2^32`) the
non-final piece 0 gets 0, not `piece_size`.  On `many` (`n_pieces = 2^32`)
the final piece `2^32 - 1` gets `piece_size = 2`, not
`final_piece_size = 1`. -/
theorem countBytesInPiece_fails :
    (PieceGeometry big ∧ InWidth big ∧ 0 < big.n_pieces - 1 ∧
      countBytesInPiece big 0 = 0 ∧ big.piece_size = 2 ^ 32) ∧
    (PieceGeometry many ∧ InWidth many ∧ 2 ^ 32 - 1 = many.n_pieces - 1 ∧
      countBytesInPiece many (2 ^ 32 - 1) = 2 ∧ many.final_piece_size = 1) := by
  decide

/-! ## Offsets -/

/-- On a valid geometry the bytes that `countBytesInPiece` reports for a
piece below `n_pieces` end inside the content, and they are at most
`piece_size`. -/
theorem piece_end_le_total {bi : tr_block_info} (h : ValidGeometry bi) {p : Nat}
    (hp : p < bi.n_pieces) :
    p * bi.piece_size + countBytesInPiece bi p ≤ bi.total_size ∧
      countBytesInPiece bi p ≤ bi.piece_size := by
  by_cases hl : p + 1 = bi.n_pieces
  · have h1 := h.final_piece
    have h2 := h.final_piece_le
    have : bi.n_pieces - 1 = p := by omega
    rw [this] at h1
    rw [countBytesInPiece_final h hl]
    omega
  · have hp1 : p + 1 < bi.n_pieces := by omega
    have h2 := (h.lt_n_pieces_iff (p + 1)).1 hp1
    have h3 : u32 bi.piece_size ≤ bi.piece_size := Nat.mod_le _ _
    rw [Nat.add_mul, Nat.one_mul] at h2
    rw [countBytesInPiece_nonfinal hp1 (lt_trans hp h.n_pieces_lt)]
    omega

theorem countBytesInPiece_lt (bi : tr_block_info) (p : Nat) :
    countBytesInPiece bi p < 2 ^ 32 := u32_lt _

/-- C11: with every field within its width, for every block below
`n_blocks`, `countBytesInBlock` returns `final_block_size` when the block is
`n_blocks - 1` and `block_size` otherwise; in particular it returns
`block_size` for every block below `n_blocks - 1`. -/
theorem countBytesInBlock_cases (bi : tr_block_info) (block : Nat)
    (hw : InWidth bi) (hb : block < bi.n_blocks) :
    countBytesInBlock bi block
        = (if block = bi.n_blocks - 1 then bi.final_block_size else bi.block_size) ∧
      (block < bi.n_blocks - 1 → countBytesInBlock bi block = bi.block_size) := by
  have hn : bi.n_blocks < 2 ^ 32 := hw.2.2.2.1
  have hs : bi.block_size < 2 ^ 32 := hw.2.2.2.2.2.2.1
  have hf : bi.final_block_size < 2 ^ 32 := hw.2.2.2.2.2.2.2.1
  have hiff := succ_eq_count_iff hb hn
  have key : countBytesInBlock bi block
      = (if block = bi.n_blocks - 1 then bi.final_block_size else bi.block_size) := by
    unfold countBytesInBlock
    by_cases hl : block = bi.n_blocks - 1
    · rw [if_pos (hiff.2 (by omega)), if_pos hl, u32_of_lt hf]
    · rw [if_neg (fun e => hl (by have := hiff.1 e; omega)), if_neg hl, u32_of_lt hs]
  refine ⟨key, fun hlt => ?_⟩
  rw [key, if_neg (by omega)]

/-- C11, witness: scenario S2, the final block 61 (576 bytes) and the
block 60 before it (16384 bytes). -/
theorem countBytesInBlock_cases_witness :
    countBytesInBlock s2 61 = 576 ∧ countBytesInBlock s2 60 = 16384 :=
  ⟨(countBytesInBlock_cases s2 61 (by decide) (by decide)).1,
   (countBytesInBlock_cases s2 60 (by decide) (by decide)).2 (by decide)⟩

/-- C12: on a valid geometry, for `piece < n_pieces` and
`offset + length ≤ countBytesInPiece(piece)`, `totalOffset` returns
`piece * piece_size + offset + length` as an exact integer, a value below
`2^64`, and with the length omitted it returns
`piece * piece_size + offset`. -/
theorem totalOffset_exact (bi : tr_block_info) (piece offset length : Nat)
    (h : ValidGeometry bi) (hp : piece < bi.n_pieces)
    (hol : offset + length ≤ countBytesInPiece bi piece) :
    totalOffset bi piece offset length = piece * bi.piece_size + offset + length ∧
      piece * bi.piece_size + offset + length < 2 ^ 64 ∧
      totalOffset bi piece offset = piece * bi.piece_size + offset := by
  have h1 := (piece_end_le_total h hp).1
  have h2 := countBytesInPiece_lt bi piece
  have hT := h.total_lt
  have hp32 := lt_trans hp h.n_pieces_lt
  refine ⟨totalOffset_eq hp32 (by omega) (by omega) (by omega), by omega, ?_⟩
  exact totalOffset_eq hp32 (by omega) (by norm_num) (by omega)

/-- C12, witness: scenario S6, `totalOffset(2, 1024, 512) = 525824` on S1. -/
theorem totalOffset_exact_witness :
    totalOffset s1 2 1024 512 = 2 * s1.piece_size + 1024 + 512 ∧
      2 * s1.piece_size + 1024 + 512 < 2 ^ 64 ∧
      totalOffset s1 2 1024 = 2 * s1.piece_size + 1024 :=
  totalOffset_exact s1 2 1024 512 (by decide) (by decide) (by decide)

/-- C13: on a valid geometry, for `p < n_pieces` and
`o < countBytesInPiece(p)`, `totalOffset(p, o) = p * piece_size + o`,
dividing by `piece_size` recovers `p`, the remainder recovers `o`, and no
other valid pair has the same offset. -/
theorem totalOffset_round_trip (bi : tr_block_info) (p o : Nat)
    (h : ValidGeometry bi) (hp : p < bi.n_pieces)
    (ho : o < countBytesInPiece bi p) :
    totalOffset bi p o = p * bi.piece_size + o ∧
      totalOffset bi p o / bi.piece_size = p ∧
      totalOffset bi p o % bi.piece_size = o ∧
      ∀ p' o', p' < bi.n_pieces → o' < countBytesInPiece bi p' →
        totalOffset bi p' o' = totalOffset bi p o → p' = p ∧ o' = o := by
  have hps := h.piece_size_pos
  have key : ∀ q r, q < bi.n_pieces → r < countBytesInPiece bi q →
      totalOffset bi q r = q * bi.piece_size + r ∧ r < bi.piece_size := by
    intro q r hq hr
    have h1 := piece_end_le_total h hq
    have h2 := countBytesInPiece_lt bi q
    have hT := h.total_lt
    exact ⟨totalOffset_eq (lt_trans hq h.n_pieces_lt) (by omega) (by norm_num)
      (by omega), by omega⟩
  obtain ⟨e, holt⟩ := key p o hp ho
  have hdiv : (p * bi.piece_size + o) / bi.piece_size = p := by
    rw [Nat.mul_comm, Nat.mul_add_div hps, Nat.div_eq_of_lt holt, Nat.add_zero]
  have hmod : (p * bi.piece_size + o) % bi.piece_size = o := by
    rw [Nat.mul_comm, Nat.mul_add_mod, Nat.mod_eq_of_lt holt]
  refine ⟨e, by rw [e, hdiv], by rw [e, hmod], ?_⟩
  intro p' o' hp' ho' heq
  obtain ⟨e', holt'⟩ := key p' o' hp' ho'
  rw [e, e'] at heq
  have hdiv' : (p' * bi.piece_size + o') / bi.piece_size = p' := by
    rw [Nat.mul_comm, Nat.mul_add_div hps, Nat.div_eq_of_lt holt', Nat.add_zero]
  have hmod' : (p' * bi.piece_size + o') % bi.piece_size = o' := by
    rw [Nat.mul_comm, Nat.mul_add_mod, Nat.mod_eq_of_lt holt']
  constructor
  · rw [← hdiv', heq, hdiv]
  · rw [← hmod', heq, hmod]

/-- C13, witness: scenario S2, the last byte of the final piece. -/
theorem totalOffset_round_trip_witness :
    totalOffset s2 3 213567 = 3 * s2.piece_size + 213567 ∧
      totalOffset s2 3 213567 / s2.piece_size = 3 ∧
      totalOffset s2 3 213567 % s2.piece_size = 213567 ∧
      ∀ p' o', p' < s2.n_pieces → o' < countBytesInPiece s2 p' →
        totalOffset s2 p' o' = totalOffset s2 3 213567 → p' = 3 ∧ o' = 213567 :=
  totalOffset_round_trip s2 3 213567 (by decide) (by decide) (by decide)

/-- C17: on a valid geometry, for a non-final piece (`piece < n_pieces - 1`)
the first block that `blockRangeForPiece` computes, the quotient of
`piece * piece_size` by `block_size`, equals `piece * n_blocks_in_piece`. -/
theorem first_block_simplifies (bi : tr_block_info) (piece : Nat)
    (h : ValidGeometry bi) (hp : piece < bi.n_pieces - 1) :
    ∃ r, blockRangeForPiece bi piece = some r ∧
      r.first = piece * bi.piece_size / bi.block_size ∧
      r.first = piece * bi.n_blocks_in_piece := by
  have hps : bi.piece_size = bi.n_blocks_in_piece * bi.block_size := h.2.2.2.1
  refine ⟨_, blockRangeForPiece_eq h (by omega), ?_, rfl⟩
  show piece * bi.n_blocks_in_piece = piece * bi.piece_size / bi.block_size
  rw [hps, ← Nat.mul_assoc, Nat.mul_div_cancel _ h.block_size_pos]

/-- C17, witness: scenario S2, piece 2 starts at block 32. -/
theorem first_block_simplifies_witness :
    ∃ r, blockRangeForPiece s2 2 = some r ∧
      r.first = 2 * s2.piece_size / s2.block_size ∧
      r.first = 2 * s2.n_blocks_in_piece :=
  first_block_simplifies s2 2 (by decide) (by decide)

/-- C18: on a valid geometry, for `piece < n_pieces` and
`offset + length ≤ countBytesInPiece(piece)`, `totalOffset` stays within the
content, `totalOffset(piece, offset, length) ≤ total_size`, and
`totalOffset(piece, offset) < total_size` when
`offset < countBytesInPiece(piece)`. -/
theorem totalOffset_inside_content (bi : tr_block_info) (piece offset length : Nat)
    (h : ValidGeometry bi) (hp : piece < bi.n_pieces)
    (hol : offset + length ≤ countBytesInPiece bi piece) :
    totalOffset bi piece offset length ≤ bi.total_size ∧
      (offset < countBytesInPiece bi piece →
        totalOffset bi piece offset < bi.total_size) := by
  have h1 := (piece_end_le_total h hp).1
  have h2 := countBytesInPiece_lt bi piece
  have hT := h.total_lt
  have hp32 := lt_trans hp h.n_pieces_lt
  constructor
  · rw [totalOffset_eq hp32 (by omega) (by omega) (by omega)]
    omega
  · intro ho
    rw [totalOffset_eq hp32 (by omega) (by norm_num) (by omega)]
    omega

/-- C18, witness: the geometry `wide`, whose piece size exceeds 32 bits: the
end of the one-byte final piece is the end of the content. -/
theorem totalOffset_inside_content_witness :
    totalOffset wide 1 0 1 ≤ wide.total_size ∧
      totalOffset wide 1 0 < wide.total_size :=
  ⟨(totalOffset_inside_content wide 1 0 1 (by decide) (by decide) (by decide)).1,
   (totalOffset_inside_content wide 1 0 1 (by decide) (by decide) (by decide)).2
     (by decide)⟩

/-- C20: in the zero-state `countBytesInPiece` and `countBytesInBlock`
return 0 for every 32-bit index, and `totalOffset(piece, offset, length)`
returns `offset + length` for 32-bit arguments. -/
theorem zeroState_queries (index offset length : Nat) (hi : index < 2 ^ 32)
    (ho : offset < 2 ^ 32) (hl : length < 2 ^ 32) :
    countBytesInPiece zeroState index = 0 ∧ countBytesInBlock zeroState index = 0 ∧
      totalOffset zeroState index offset length = offset + length := by
  refine ⟨?_, ?_, ?_⟩
  · unfold countBytesInPiece
    split <;> rfl
  · unfold countBytesInBlock
    split <;> rfl
  · rw [totalOffset_eq hi ho hl (by show index * 0 + offset + length < 2 ^ 64; omega)]
    show index * 0 + offset + length = offset + length
    omega

/-- C20, witness: the index `2^32 - 1`, where `index + 1` wraps to 0, with
the largest 32-bit offset and length. -/
theorem zeroState_queries_witness :
    countBytesInPiece zeroState (2 ^ 32 - 1) = 0 ∧
      countBytesInBlock zeroState (2 ^ 32 - 1) = 0 ∧
      totalOffset zeroState (2 ^ 32 - 1) (2 ^ 32 - 1) (2 ^ 32 - 1)
        = (2 ^ 32 - 1) + (2 ^ 32 - 1) :=
  zeroState_queries (2 ^ 32 - 1) (2 ^ 32 - 1) (2 ^ 32 - 1)
    (by decide) (by decide) (by decide)

/-! ## The last block of a range -/

theorem lastByte_of_pos {bi : tr_block_info} {p : Nat}
    (h : 1 ≤ countBytesInPiece bi p) : lastByte bi p = countBytesInPiece bi p - 1 := by
  have h2 := countBytesInPiece_lt bi p
  unfold lastByte u32
  omega

theorem countBytesInPiece_pos {bi : tr_block_info} (h : ValidGeometry bi) {p : Nat}
    (hp : p < bi.n_pieces) (hs : bi.piece_size < 2 ^ 32) :
    1 ≤ countBytesInPiece bi p ∧
      countBytesInPiece bi p
        = (if p + 1 = bi.n_pieces then bi.final_piece_size else bi.piece_size) := by
  by_cases hl : p + 1 = bi.n_pieces
  · rw [countBytesInPiece_final h hl, if_pos hl]
    exact ⟨h.final_piece.1, rfl⟩
  · rw [countBytesInPiece_nonfinal (by omega) (lt_trans hp h.n_pieces_lt), if_neg hl,
      u32_of_lt hs]
    exact ⟨h.piece_size_pos, rfl⟩

/-- C14 (amended): on a valid geometry, for a piece below `n_pieces` whose
`countBytesInPiece` is at least 1, `blockRangeForPiece` returns exactly
`first = ⌊piece * piece_size / block_size⌋` and
`last = ⌊(piece * piece_size + countBytesInPiece(piece) - 1) / block_size⌋`,
both below `2^32`, so that narrowing them to the block index loses
nothing. -/
theorem blockRange_formula (bi : tr_block_info) (piece : Nat)
    (h : ValidGeometry bi) (hp : piece < bi.n_pieces)
    (hc : 1 ≤ countBytesInPiece bi piece) :
    ∃ r, blockRangeForPiece bi piece = some r ∧
      r.first = piece * bi.piece_size / bi.block_size ∧
      r.last = (piece * bi.piece_size + countBytesInPiece bi piece - 1) / bi.block_size ∧
      piece * bi.piece_size / bi.block_size < 2 ^ 32 ∧
      (piece * bi.piece_size + countBytesInPiece bi piece - 1) / bi.block_size
        < 2 ^ 32 := by
  have hbs := h.block_size_pos
  have hps : bi.piece_size = bi.n_blocks_in_piece * bi.block_size := h.2.2.2.1
  have hfirst : piece * bi.piece_size / bi.block_size = piece * bi.n_blocks_in_piece := by
    rw [hps, ← Nat.mul_assoc, Nat.mul_div_cancel _ hbs]
  have hoff : piece * bi.piece_size + countBytesInPiece bi piece - 1
      = piece * bi.piece_size + lastByte bi piece := by
    rw [lastByte_of_pos hc]; omega
  have hlast : (piece * bi.piece_size + lastByte bi piece) / bi.block_size
      < bi.n_blocks := by
    rw [Nat.div_lt_iff_lt_mul hbs]
    exact lt_of_lt_of_le (lastByte_lt_total h hp) h.total_le_blocks
  have hnb := h.n_blocks_lt
  have hfl := h.first_block_lt hp
  rw [hoff, hfirst]
  exact ⟨_, blockRangeForPiece_eq h hp, rfl, rfl, by omega, by omega⟩

/-- C14, witness: scenario S5, `blockRangeForPiece(3) = (48, 61)` on S2. -/
theorem blockRange_formula_witness :
    ∃ r, blockRangeForPiece s2 3 = some r ∧
      r.first = 3 * s2.piece_size / s2.block_size ∧
      r.last = (3 * s2.piece_size + countBytesInPiece s2 3 - 1) / s2.block_size ∧
      3 * s2.piece_size / s2.block_size < 2 ^ 32 ∧
      (3 * s2.piece_size + countBytesInPiece s2 3 - 1) / s2.block_size < 2 ^ 32 :=
  blockRange_formula s2 3 (by decide) (by decide) (by decide)

/-- C14 as stated fails: on the valid geometry `wide`, `countBytesInPiece(0)`
is 0 and the code's last block for piece 0 is 262143, while
`(0 * piece_size + 0 - 1) / block_size` is not, neither over the integers
nor with the subtraction stopped at 0. -/
theorem blockRange_formula_fails_wide :
    ValidGeometry wide ∧ 0 < wide.n_pieces ∧
      blockRangeForPiece wide 0 = some ⟨0, 262143⟩ ∧
      (((0 * wide.piece_size + countBytesInPiece wide 0 : Nat) : Int) - 1)
          / (wide.block_size : Int) ≠ 262143 ∧
      (0 * wide.piece_size + countBytesInPiece wide 0 - 1) / wide.block_size
        ≠ 262143 := by
  decide

/-- C19 (amended): on a valid geometry `pieceForBlock` and
`blockRangeForPiece` never divide by zero; and when the piece size fits in
32 bits, for every piece below `n_pieces` the count of bytes is the exact
size of the piece and is at least 1, so the 32-bit subtraction
`countBytesInPiece(piece) - 1` is the exact integer difference and the last
block is that of byte `piece * piece_size + (bytes in piece) - 1`. -/
theorem queries_total (bi : tr_block_info) (h : ValidGeometry bi) :
    (∀ block, ∃ p, pieceForBlock bi block = some p) ∧
    (∀ piece, ∃ r, blockRangeForPiece bi piece = some r) ∧
    (bi.piece_size < 2 ^ 32 → ∀ piece, piece < bi.n_pieces →
      countBytesInPiece bi piece
        = (if piece + 1 = bi.n_pieces then bi.final_piece_size else bi.piece_size) ∧
      (lastByte bi piece : Int) = (countBytesInPiece bi piece : Int) - 1 ∧
      ∃ r, blockRangeForPiece bi piece = some r ∧
        r.last = (piece * bi.piece_size + countBytesInPiece bi piece - 1)
          / bi.block_size) := by
  have hk : 1 ≤ bi.n_blocks_in_piece := h.2.2.1
  have hbs := h.block_size_pos
  refine ⟨fun block => ?_, fun piece => ?_, fun hs piece hp => ?_⟩
  · unfold pieceForBlock
    rw [if_neg (by omega)]
    exact ⟨_, rfl⟩
  · unfold blockRangeForPiece
    rw [if_neg (by omega)]
    exact ⟨_, rfl⟩
  · obtain ⟨hc, he⟩ := countBytesInPiece_pos h hp hs
    have hl := lastByte_of_pos hc
    refine ⟨he, by omega, _, blockRangeForPiece_eq h hp, ?_⟩
    show (piece * bi.piece_size + lastByte bi piece) / bi.block_size = _
    rw [hl, Nat.add_sub_assoc hc]

/-- C19, witness: scenario S2, the queries at block 61 and at the final
piece 3. -/
theorem queries_total_witness :
    (∃ p, pieceForBlock s2 61 = some p) ∧
    (∃ r, blockRangeForPiece s2 3 = some r) ∧
    (countBytesInPiece s2 3
        = (if 3 + 1 = s2.n_pieces then s2.final_piece_size else s2.piece_size) ∧
      (lastByte s2 3 : Int) = (countBytesInPiece s2 3 : Int) - 1 ∧
      ∃ r, blockRangeForPiece s2 3 = some r ∧
        r.last = (3 * s2.piece_size + countBytesInPiece s2 3 - 1) / s2.block_size) :=
  ⟨(queries_total s2 (by decide)).1 61, (queries_total s2 (by decide)).2.1 3,
   (queries_total s2 (by decide)).2.2 (by decide) 3 (by decide)⟩

/-- C19 as stated fails in its third part: on the valid geometry `wide`
piece 0 has `2^33` bytes, `countBytesInPiece(0)` is 0, and the 32-bit
subtraction `0 - 1` gives `2^32 - 1`; the last block becomes 262143, which is
the block neither of byte `0 + 0 - 1` nor of byte `0 + 2^33 - 1`. -/
theorem subtraction_wraps_wide :
    ValidGeometry wide ∧ 0 < wide.n_pieces ∧ countBytesInPiece wide 0 = 0 ∧
      lastByte wide 0 = 2 ^ 32 - 1 ∧
      (lastByte wide 0 : Int) ≠ (countBytesInPiece wide 0 : Int) - 1 ∧
      blockRangeForPiece wide 0 = some ⟨0, 262143⟩ ∧
      (((0 * wide.piece_size + countBytesInPiece wide 0 : Nat) : Int) - 1)
          / (wide.block_size : Int) ≠ 262143 ∧
      (0 * wide.piece_size + wide.piece_size - 1) / wide.block_size ≠ 262143 := by
  refine ⟨by decide, by decide, by decide, by decide, ?_, by decide, by decide, by decide⟩
  have e1 : lastByte wide 0 = 2 ^ 32 - 1 := by decide
  have e2 : countBytesInPiece wide 0 = 0 := by decide
  rw [e1, e2]
  norm_num

/-! ## Block size and construction -/

theorem bestBlockSize_small {ps : Nat} (h : ps < 16384) : bestBlockSize ps = ps := by
  unfold bestBlockSize
  change (if ps < 16384 then ps else if ps % 16384 = 0 then 16384 else ps) = ps
  rw [if_pos h]

theorem bestBlockSize_multiple {ps : Nat} (h : 16384 ≤ ps) (hd : ps % 16384 = 0) :
    bestBlockSize ps = 16384 := by
  unfold bestBlockSize
  change (if ps < 16384 then ps else if ps % 16384 = 0 then 16384 else ps) = 16384
  rw [if_neg (by omega), if_pos hd]

theorem bestBlockSize_other {ps : Nat} (h : 16384 ≤ ps) (hd : ps % 16384 ≠ 0) :
    bestBlockSize ps = ps := by
  unfold bestBlockSize
  change (if ps < 16384 then ps else if ps % 16384 = 0 then 16384 else ps) = ps
  rw [if_neg (by omega), if_neg hd]

theorem bestBlockSize_pos {ps : Nat} (h1 : 1 ≤ ps) :
    1 ≤ bestBlockSize ps ∧ bestBlockSize ps ≤ ps := by
  by_cases h : ps < 16384
  · rw [bestBlockSize_small h]; omega
  · by_cases hd : ps % 16384 = 0
    · rw [bestBlockSize_multiple (by omega) hd]; omega
    · rw [bestBlockSize_other (by omega) hd]; omega

theorem bestBlockSize_dvd (ps : Nat) : bestBlockSize ps ∣ ps := by
  by_cases h : ps < 16384
  · rw [bestBlockSize_small h]
  · by_cases hd : ps % 16384 = 0
    · rw [bestBlockSize_multiple (by omega) hd]
      exact Nat.dvd_of_mod_eq_zero hd
    · rw [bestBlockSize_other (by omega) hd]

theorem ceilDiv_bounds {a b : Nat} (hb : 0 < b) (ha : 0 < a) :
    0 < a - (ceilDiv a b - 1) * b ∧ a - (ceilDiv a b - 1) * b ≤ b ∧
      ceilDiv a b ≤ a := by
  have h1 := pred_ceilDiv_mul_lt hb ha
  have h2 := le_ceilDiv_mul (a := a) hb
  have h0 := ceilDiv_pos hb ha
  have h3 : ceilDiv a b * b = (ceilDiv a b - 1) * b + b := by
    conv_lhs => rw [show ceilDiv a b = (ceilDiv a b - 1) + 1 by omega]
    rw [Nat.add_mul, Nat.one_mul]
  have h4 : ceilDiv a b ≤ a := by
    rw [ceilDiv_le_iff hb]
    exact Nat.le_mul_of_pos_right a hb
  omega

/-- The struct that `initBlockInfo` returns when the piece size fits in 32
bits and the block count fits its field: no stored value is cut. -/
theorem initBlockInfo_eq {total_size piece_size : Nat}
    (hp1 : 1 ≤ piece_size) (hps : piece_size < 2 ^ 32)
    (ht0 : 0 < total_size) (ht64 : total_size < 2 ^ 64)
    (hnb : ceilDiv total_size (bestBlockSize piece_size) < 2 ^ 32) :
    initBlockInfo total_size piece_size = some
      { total_size := total_size, piece_size := piece_size,
        n_pieces := ceilDiv total_size piece_size,
        n_blocks := ceilDiv total_size (bestBlockSize piece_size),
        n_blocks_in_piece := u32 (piece_size / bestBlockSize piece_size),
        n_blocks_in_final_piece :=
          u32 (ceilDiv (total_size - (ceilDiv total_size piece_size - 1) * piece_size)
            (bestBlockSize piece_size)),
        block_size := bestBlockSize piece_size,
        final_block_size := total_size
          - (ceilDiv total_size (bestBlockSize piece_size) - 1)
            * bestBlockSize piece_size,
        final_piece_size :=
          total_size - (ceilDiv total_size piece_size - 1) * piece_size } := by
  obtain ⟨hb1, hb2⟩ := bestBlockSize_pos hp1
  obtain ⟨hf1, hf2, hn1⟩ := ceilDiv_bounds (a := total_size) (b := piece_size) hp1 ht0
  obtain ⟨hg1, hg2, -⟩ :=
    ceilDiv_bounds (a := total_size) (b := bestBlockSize piece_size) hb1 ht0
  have hp64 : piece_size < 2 ^ 64 := by omega
  have e0 : u32 (bestBlockSize piece_size) = bestBlockSize piece_size :=
    u32_of_lt (by omega)
  have e1 : u64 (ceilDiv total_size piece_size) = ceilDiv total_size piece_size :=
    u64_of_lt (by omega)
  have e2 : u32 (total_size - (ceilDiv total_size piece_size - 1) * piece_size)
      = total_size - (ceilDiv total_size piece_size - 1) * piece_size :=
    u32_of_lt (by omega)
  have e3 : u32 (ceilDiv total_size (bestBlockSize piece_size))
      = ceilDiv total_size (bestBlockSize piece_size) := u32_of_lt hnb
  have e4 : u32 (total_size
        - (ceilDiv total_size (bestBlockSize piece_size) - 1) * bestBlockSize piece_size)
      = total_size
        - (ceilDiv total_size (bestBlockSize piece_size) - 1) * bestBlockSize piece_size :=
    u32_of_lt (by omega)
  unfold initBlockInfo
  simp only [u64_of_lt ht64, u64_of_lt hp64, e0]
  rw [if_neg (by omega), if_neg (by omega)]
  simp only [e1, e2, e3, e4]

/-- Scenario S1: 1 MiB in pieces of 256 KiB. -/
theorem initBlockInfo_s1 : initBlockInfo 1048576 262144 = some s1 := by decide

/-- Scenario S2: 1 000 000 bytes in pieces of 256 KiB; the final block has
`1 000 000 - 61 * 16 384 = 576` bytes. -/
theorem initBlockInfo_s2 : initBlockInfo 1000000 262144 = some s2 := by decide

/-- Scenario S3: one piece of 8192 bytes, smaller than the protocol block;
the block size falls back to the piece size. -/
theorem initBlockInfo_s3 :
    initBlockInfo 8192 8192
      = some { total_size := 8192, piece_size := 8192, n_pieces := 1, n_blocks := 1,
               n_blocks_in_piece := 1, n_blocks_in_final_piece := 1,
               block_size := 8192, final_block_size := 8192,
               final_piece_size := 8192 } := by
  decide

/-- When nothing is cut, the struct that `initBlockInfo` builds is a valid
geometry: the hypotheses of the query theorems hold after construction. -/
theorem initBlockInfo_valid {total_size piece_size : Nat}
    (hp1 : 1 ≤ piece_size) (hps : piece_size < 2 ^ 32)
    (ht0 : 0 < total_size) (ht64 : total_size < 2 ^ 64)
    (hnb : ceilDiv total_size (bestBlockSize piece_size) < 2 ^ 32) :
    ∃ bi, initBlockInfo total_size piece_size = some bi ∧ ValidGeometry bi := by
  obtain ⟨hb1, hb2⟩ := bestBlockSize_pos hp1
  obtain ⟨hf1, hf2, hn1⟩ := ceilDiv_bounds (a := total_size) (b := piece_size) hp1 ht0
  obtain ⟨hg1, hg2, -⟩ :=
    ceilDiv_bounds (a := total_size) (b := bestBlockSize piece_size) hb1 ht0
  have hdvd := bestBlockSize_dvd piece_size
  have hq : piece_size / bestBlockSize piece_size ≤ piece_size := Nat.div_le_self _ _
  have hqpos : 1 ≤ piece_size / bestBlockSize piece_size :=
    (Nat.one_le_div_iff hb1).2 hb2
  have hc : ceilDiv (total_size - (ceilDiv total_size piece_size - 1) * piece_size)
      (bestBlockSize piece_size)
      ≤ total_size - (ceilDiv total_size piece_size - 1) * piece_size :=
    (ceilDiv_bounds hb1 hf1).2.2
  have ex : u32 (piece_size / bestBlockSize piece_size)
      = piece_size / bestBlockSize piece_size := u32_of_lt (by omega)
  have ey : u32 (ceilDiv (total_size - (ceilDiv total_size piece_size - 1) * piece_size)
      (bestBlockSize piece_size))
      = ceilDiv (total_size - (ceilDiv total_size piece_size - 1) * piece_size)
        (bestBlockSize piece_size) := u32_of_lt (by omega)
  refine ⟨_, initBlockInfo_eq hp1 hps ht0 ht64 hnb, ?_⟩
  unfold ValidGeometry InWidth
  dsimp only
  rw [ex, ey]
  exact ⟨ht0, hb1, hqpos, (Nat.div_mul_cancel hdvd).symm, rfl, rfl, rfl, rfl, rfl,
    ht64, by omega, by omega, hnb, by omega, by omega, by omega, by omega, by omega⟩

/-! ## Piece sizes above `2^32` -/

/-- The bound `piece_size ≤ 2^32` of range contiguity is sharp: on every
valid geometry with a larger piece size, the range of a non-final piece ends
before the block that precedes the next range. -/
theorem blockRange_gap_above {bi : tr_block_info} (h : ValidGeometry bi) {p : Nat}
    (hs : 2 ^ 32 < bi.piece_size) (hp : p + 1 < bi.n_pieces) :
    ∃ r r', blockRangeForPiece bi p = some r ∧
      blockRangeForPiece bi (p + 1) = some r' ∧ r.last + 1 < r'.first := by
  have hbs := h.block_size_pos
  have hk : 1 ≤ bi.n_blocks_in_piece := h.2.2.1
  have hps : bi.piece_size = bi.n_blocks_in_piece * bi.block_size := h.2.2.2.1
  have hb32 : bi.block_size < 2 ^ 32 := h.2.2.2.2.2.2.2.2.2.2.2.2.2.2.2.1
  have hl : lastByte bi p + 2 ^ 32 ≤ bi.piece_size - 1 := by
    unfold lastByte
    rw [countBytesInPiece_nonfinal hp (lt_trans (by omega) h.n_pieces_lt)]
    unfold u32
    omega
  refine ⟨_, _, blockRangeForPiece_eq h (by omega), blockRangeForPiece_eq h hp, ?_⟩
  show (p * bi.piece_size + lastByte bi p) / bi.block_size + 1
    < (p + 1) * bi.n_blocks_in_piece
  have e1 : (p + 1) * bi.n_blocks_in_piece
      = ((p + 1) * bi.n_blocks_in_piece - 1) + 1 := by
    have := Nat.mul_pos (show 0 < p + 1 by omega) hk
    omega
  have e2 : (p + 1) * bi.piece_size
      = ((p + 1) * bi.n_blocks_in_piece - 1) * bi.block_size + bi.block_size := by
    rw [hps, ← Nat.mul_assoc]
    conv_lhs => rw [e1]
    rw [Nat.add_mul, Nat.one_mul]
  rw [Nat.add_mul, Nat.one_mul] at e2
  have h3 : (p * bi.piece_size + lastByte bi p) / bi.block_size
      < (p + 1) * bi.n_blocks_in_piece - 1 := by
    rw [Nat.div_lt_iff_lt_mul hbs]
    omega
  omega

/-- The condition of block coverage is sharp as well: on every valid
geometry with a piece size above `2^32` and more than one piece, some block
below `n_blocks` lies in the range of no piece. -/
theorem block_in_no_range_above {bi : tr_block_info} (h : ValidGeometry bi)
    (hs : 2 ^ 32 < bi.piece_size) (hn : 1 < bi.n_pieces) :
    ∃ b, b < bi.n_blocks ∧
      ¬ ∃ p, p < bi.n_pieces ∧
        ∃ r, blockRangeForPiece bi p = some r ∧ r.first ≤ b ∧ b ≤ r.last := by
  obtain ⟨r, r', hr, hr', hgap⟩ := blockRange_gap_above (p := 0) h hs (by omega)
  have e0 := blockRangeForPiece_eq h (show 0 < bi.n_pieces by omega)
  have e1 := blockRangeForPiece_eq h (show 0 + 1 < bi.n_pieces by omega)
  rw [hr'] at e1
  have hfirst : r'.first = (0 + 1) * bi.n_blocks_in_piece := by
    cases e1; rfl
  have hlt := h.first_block_lt (show 0 + 1 < bi.n_pieces by omega)
  refine ⟨r.last + 1, by omega, ?_⟩
  rintro ⟨q, hq, t, ht, h1, h2⟩
  have eq := blockRangeForPiece_eq h hq
  rw [ht] at eq
  have hqf : t.first = q * bi.n_blocks_in_piece := by cases eq; rfl
  rcases Nat.eq_zero_or_pos q with hq0 | hqpos
  · subst hq0
    rw [hr] at ht
    cases ht
    omega
  · have : 1 * bi.n_blocks_in_piece ≤ q * bi.n_blocks_in_piece :=
      Nat.mul_le_mul_right _ hqpos
    rw [Nat.zero_add] at hfirst
    omega

end BlockInfo
